import Mathlib

/-!
Verification development for the Word-Ladder repository.

The repository's `app.py` front end drives a solving core (`words.word`,
`words.dictionary`, `solving.puzzle`, `solving.solver`) whose sources are not
part of the checked tree; those components are modelled here from the
specification, as marked on each definition.  The functions of `app.py`
itself (`validate_word`, `find_closest_solutions`,
`highlight_changes_in_ladder`) are embedded directly from the source.
-/

namespace WordLadder

/-- A dictionary word: its sequence of (uppercase-normalized) letters. -/
abbrev Word := List Char

/-- Number of positions at which two equal-length letter sequences differ
(extra positions of the longer sequence are ignored). -/
def countDiff : Word → Word → Nat
  | a :: as, b :: bs => (if a = b then 0 else 1) + countDiff as bs
  | _, _ => 0

/-- Modelled from the spec: two words are adjacent iff they have equal length
and differ in exactly one character position (`AdjacencyGraph` invariant,
spec section 3; the class is not under `src/`). -/
def adjacent (a b : Word) : Bool :=
  a.length == b.length && countDiff a b == 1

/-- Lexicographic order on letter sequences, used for the deterministic
neighbor traversal order required by the spec. -/
def lexLe : Word → Word → Bool
  | [], _ => true
  | _ :: _, [] => false
  | a :: as, b :: bs => if a < b then true else if b < a then false else lexLe as bs

/-- Modelled from the spec: the adjacency graph is the set of Words of one
length plus the one-letter-edit adjacency relation (`words.dictionary` is not
under `src/`).  `words` is the dictionary's word list. -/
structure AdjacencyGraph where
  words : List Word

/-- Insert a word into a lexicographically sorted list of words. -/
def insertLex (w : Word) : List Word → List Word
  | [] => [w]
  | v :: vs => if lexLe w v then w :: v :: vs else v :: insertLex w vs

/-- Sort a list of words lexicographically (stable insertion sort). -/
def sortLex : List Word → List Word
  | [] => []
  | w :: ws => insertLex w (sortLex ws)

/-- Modelled from the spec: the neighbors of a word in the graph, in the
deterministic lexicographic traversal order (spec section 4.3). -/
def neighbors (g : AdjacencyGraph) (w : Word) : List Word :=
  sortLex (g.words.filter (fun v => adjacent w v))

/-- Modelled from the spec: `Word.is_island` — true iff the word has zero
neighbors in its graph (`words.word` is not under `src/`). -/
def is_island (g : AdjacencyGraph) (w : Word) : Bool :=
  (neighbors g w).isEmpty

/-- Uppercase normalization applied by the front end before lookup. -/
def upperW (w : Word) : Word := w.map Char.toUpper

/-- Modelled from the spec: `Dictionary.get(text) -> Word | not-found`,
case-insensitive by normalizing to uppercase before comparison
(`words.dictionary` is not under `src/`). -/
def dictGet (g : AdjacencyGraph) (text : Word) : Option Word :=
  if upperW text ∈ g.words then some (upperW text) else none

/-- Modelled from the spec: a Puzzle references a graph, a start Word and an
end Word (`solving.puzzle` is not under `src/`). -/
structure Puzzle where
  graph : AdjacencyGraph
  start : Word
  target : Word

/-- Modelled from the spec: the Puzzle constructor fails (reports, does not
silently coerce) if either word is absent from the graph or is an island
(spec section 6; `solving.puzzle` is not under `src/`). -/
def mkPuzzle (g : AdjacencyGraph) (s t : Word) : Option Puzzle :=
  if s ∈ g.words ∧ t ∈ g.words ∧ is_island g s = false ∧ is_island g t = false then
    some ⟨g, s, t⟩
  else none

/-- Modelled from the spec: one BFS round loop for
`calculate_minimum_ladder_length` — expand from `end`, keep a visited set,
stop early once `start` is found in the current frontier, return the
edge-distance at which it is found, or `none` once the component is
exhausted (spec section 4.2).  `fuel` bounds the number of rounds; the
choice in `bfs` below is large enough that it is never exhausted. -/
def bfsAux (g : AdjacencyGraph) (s : Word) :
    Nat → List Word → List Word → Nat → Option Nat
  | 0, _, _, _ => none
  | fuel + 1, frontier, visited, d =>
    if s ∈ frontier then some d
    else
      let next := ((frontier.flatMap (fun w => neighbors g w)).filter
        (fun w => w ∉ visited)).dedup
      if next = [] then none
      else bfsAux g s fuel next (visited ++ next) (d + 1)

/-- Modelled from the spec: BFS edge-distance from `t` to `s` over the graph
(spec section 4.2; `solving.puzzle` is not under `src/`). -/
def bfs (g : AdjacencyGraph) (s t : Word) : Option Nat :=
  bfsAux g s (g.words.length + 1) [t] [t] 0

/-- Modelled from the spec:
`Puzzle.calculate_minimum_ladder_length() -> integer | unreachable`, the word
count of the shortest ladder, i.e. BFS edge-distance + 1, or an explicit
no-value when start is unreachable from end (spec section 4.2). -/
def calculate_minimum_ladder_length (p : Puzzle) : Option Nat :=
  (bfs p.graph p.start p.target).map (· + 1)

/-- Modelled from the spec: the per-word distance-to-end table computed by
the BFS and reused by the Solver as a pruning heuristic (spec section 4.2). -/
def distTable (g : AdjacencyGraph) (t : Word) (w : Word) : Option Nat :=
  bfs g w t

/-- Modelled from the spec: whether the Solver prunes neighbor `v` when the
remaining budget after moving to `v` would be `r` words — pruned iff its
distance-to-end is unknown (unreachable) or exceeds `r` edges
(spec section 4.3). -/
def pruned (g : AdjacencyGraph) (t : Word) (r : Nat) (v : Word) : Bool :=
  match distTable g t v with
  | none => true
  | some dv => r < dv

/-- Modelled from the spec: one DFS frame of `Solver.solve` (spec
section 4.3).  `path` is the simple path walked so far (not yet including
`cur`), `remaining` is the number of words that may still be appended after
`cur`.  Returns the solutions found under this frame in traversal order,
paired with the number of node visit attempts (the `explored_count`
contribution), counting one for this frame and one for each immediately
pruned neighbor. -/
def visit (g : AdjacencyGraph) (t : Word) :
    Nat → List Word → Word → List (List Word) × Nat
  | remaining, path, cur =>
    if cur ∈ path then ([], 1)
    else if cur = t then ([path ++ [cur]], 1)
    else
      match remaining with
      | 0 => ([], 1)
      | r + 1 =>
        let children := (neighbors g cur).map fun v =>
          if pruned g t r v then ([], 1) else visit g t r (path ++ [cur]) v
        ((children.map Prod.fst).flatten, 1 + (children.map Prod.snd).sum)

/-- Modelled from the spec: `Solver.solve(max_length)` returns the ordered
sequence of all simple ladders from start to end of word count at most
`max_length`, together with the final `explored_count` (spec section 4.3;
`solving.solver` is not under `src/`). -/
def solve (p : Puzzle) (max_length : Nat) : List (List Word) × Nat :=
  match max_length with
  | 0 => ([], 0)
  | m + 1 => visit p.graph p.target m [] p.start

/-! Embeddings of the functions of `src/app.py` itself.  Text is modelled as
`List Char`; emitted markdown reports are collected as a list of messages. -/

/-- ASCII apostrophe, as written around the offending word in the reports. -/
def sq : List Char := [Char.ofNat 39]

/-- Embeds `red` (app.py line 20): wrap a message in the red-colored span. -/
def red (msg : List Char) : List Char :=
  "<span style=\"color: red;\">".toList ++ msg ++ "</span>".toList

/-- The does-not-exist report text of `validate_word` (app.py line 133). -/
def notFoundMsg (word_input : List Char) : List Char :=
  "⚠️ Word ".toList ++ sq ++ word_input ++ sq ++ " does not exist!".toList

/-- The island-word report text of `validate_word` (app.py line 135). -/
def islandMsg (word_input : List Char) : List Char :=
  "⚠️ Word ".toList ++ sq ++ word_input ++ sq ++
    " is an island word (cannot change single letter to form another word).".toList

/-- Embeds `validate_word` (app.py lines 130-138): look the uppercased input
up in the dictionary; report and return no word when it is absent or an
island, otherwise return the word.  The second component collects the
markdown reports emitted via `st.markdown`. -/
def validate_word (g : AdjacencyGraph) (word_input : List Char) :
    Option Word × List (List Char) :=
  match dictGet g (upperW word_input) with
  | none => (none, [red (notFoundMsg word_input)])
  | some word =>
    if is_island g word then (none, [red (islandMsg word_input)])
    else (some word, [])

/-! Model of `difflib.SequenceMatcher` (Python standard library, junk-free
case) as used by `find_closest_solutions` on short lists of words. -/

/-- Length of the common prefix of two lists of words. -/
def runLen : List (List Char) → List (List Char) → Nat
  | a :: as, b :: bs => if a = b then runLen as bs + 1 else 0
  | _, _ => 0

/-- Size of the maximal matching block of `a` and `b` starting at `(i, j)`,
clipped to the ranges ending at `ahi` and `bhi`. -/
def matchAt (a b : List (List Char)) (ahi bhi i j : Nat) : Nat :=
  min (runLen (a.drop i) (b.drop j)) (min (ahi - i) (bhi - j))

/-- Modelled from the documented behavior of
`difflib.SequenceMatcher.find_longest_match` with no junk: among all maximal
matching blocks in `a[alo:ahi]` x `b[blo:bhi]`, the longest, and among those
the one starting earliest in `a`, then earliest in `b`; returned as
`(i, j, size)`. -/
def findLongestMatch (a b : List (List Char)) (alo ahi blo bhi : Nat) :
    Nat × Nat × Nat :=
  (List.range' alo (ahi - alo)).foldl
    (fun best i =>
      (List.range' blo (bhi - blo)).foldl
        (fun best j =>
          let k := matchAt a b ahi bhi i j
          if best.2.2 < k then (i, j, k) else best)
        best)
    (alo, blo, 0)

/-- Modelled from `difflib.SequenceMatcher.get_matching_blocks`: total
number of matched elements, by recursively splitting around the longest
match.  `fuel` bounds the recursion depth; the choice in `matchesTotal`
below is large enough that it is never exhausted. -/
def matchBlocksSum (a b : List (List Char)) :
    Nat → Nat → Nat → Nat → Nat → Nat
  | 0, _, _, _, _ => 0
  | fuel + 1, alo, ahi, blo, bhi =>
    let m := findLongestMatch a b alo ahi blo bhi
    if m.2.2 = 0 then 0
    else
      matchBlocksSum a b fuel alo m.1 blo m.2.1 + m.2.2 +
        matchBlocksSum a b fuel (m.1 + m.2.2) ahi (m.2.1 + m.2.2) bhi

/-- Total matched size `M` over the full sequences. -/
def matchesTotal (a b : List (List Char)) : Nat :=
  matchBlocksSum a b (a.length + b.length + 1) 0 a.length 0 b.length

/-- Modelled from `difflib.SequenceMatcher.ratio`: `2.0 * M / T` where `T`
is the total number of elements of both sequences (1 when both are empty),
computed here as an exact rational. -/
def similarity (a b : List (List Char)) : ℚ :=
  if a.length + b.length = 0 then 1
  else (2 * matchesTotal a b : ℚ) / (a.length + b.length : ℚ)

/-- Embeds `find_closest_solutions` (app.py lines 141-153): pair every
candidate solution with its similarity ratio to the user solution, sort by
ratio in descending order (stably, as Python's `list.sort` with
`reverse=True`), and return the candidates in that order. -/
def find_closest_solutions (user_solution : List (List Char))
    (solutions : List (List (List Char))) : List (List (List Char)) :=
  let solutions_with_ratio := solutions.map fun s => (s, similarity user_solution s)
  let sorted := solutions_with_ratio.mergeSort fun x y => decide (y.2 ≤ x.2)
  sorted.map Prod.fst

/-! Embedding of `highlight_changes_in_ladder` (app.py lines 156-179). -/

/-- The opening highlight span written around the changed letter
(app.py line 169). -/
def spanOpenH : List Char :=
  "<span style=\"color: yellow; font-weight: bold;\">".toList

/-- The closing highlight span (app.py line 169). -/
def spanCloseH : List Char := "</span>".toList

/-- The arrow separator appended after each non-final word
(app.py line 174). -/
def arrowPiece : List Char := " ➔ ".toList

/-- Embeds the inner loop of `highlight_changes_in_ladder` (app.py lines
164-173): walk `word1` and `word2` in parallel looking for the first index
`j` with `word1[j] != word2[j]`; `some (some (pre, c, post))` splits `word1`
as `word1[:j]`, `word1[j]`, `word1[j+1:]`; `some none` means the loop ran
out of positions of `word1` without a difference; `none` is the IndexError
raised when `word2` is exhausted first. -/
def firstDiffSplit : List Char → List Char → Option (Option (List Char × Char × List Char))
  | [], _ => some none
  | _ :: _, [] => none
  | a :: as, b :: bs =>
    if a = b then
      match firstDiffSplit as bs with
      | none => none
      | some none => some none
      | some (some (pre, c, post)) => some (some (a :: pre, c, post))
    else some (some ([], a, as))

/-- Embeds the outer loop of `highlight_changes_in_ladder` (app.py lines
159-174): for each consecutive pair, append the highlighted form of the
earlier word when a differing position exists, and the arrow separator
either way. -/
def ladderPieces : List (List Char) → Option (List (List Char))
  | [] => some []
  | [_] => some []
  | w1 :: w2 :: rest =>
    match firstDiffSplit w1 w2, ladderPieces (w2 :: rest) with
    | none, _ => none
    | some none, r => r.map fun ps => arrowPiece :: ps
    | some (some (pre, c, post)), r =>
      r.map fun ps => (pre ++ spanOpenH ++ [c] ++ spanCloseH ++ post) :: arrowPiece :: ps

/-- Embeds `highlight_changes_in_ladder` (app.py lines 156-179): the pieces
of the outer loop followed by the last word of the ladder, joined into one
text.  `none` models the exceptions the Python raises (IndexError on an
empty ladder at `ladder[-1]`, or inside the loop on a shorter later
word). -/
def highlight_changes_in_ladder (ladder : List (List Char)) : Option (List Char) :=
  match ladder.getLast? with
  | none => none
  | some lastWord => (ladderPieces ladder).map fun ps => (ps ++ [lastWord]).flatten

/-- Index of the first position at which two equal-length words differ, as
described by the claim (least `j` with `w1[j] ≠ w2[j]`). -/
def firstDiffIdx (w1 w2 : List Char) : Nat :=
  (List.zip w1 w2).findIdx fun p => decide (p.1 ≠ p.2)

/-- Stated from the claim: the earlier word of a consecutive pair with
exactly its first differing character wrapped in the highlight span. -/
def claimHighlightWord (w1 w2 : List Char) : List Char :=
  let j := firstDiffIdx w1 w2
  w1.take j ++ spanOpenH ++ (w1.drop j).take 1 ++ spanCloseH ++ w1.drop (j + 1)

/-- Stated from the claim: each non-final word highlighted at its first
differing position, the words separated by the arrow, the final word
verbatim. -/
def claimHighlight (ladder : List (List Char)) : List Char :=
  List.intercalate arrowPiece
    ((ladder.zip ladder.tail).map (fun p => claimHighlightWord p.1 p.2) ++
      [ladder.getLastD []])

/-! Basic facts about adjacency and neighbor lists. -/

theorem countDiff_comm (a b : Word) : countDiff a b = countDiff b a := by
  induction a generalizing b with
  | nil => cases b <;> rfl
  | cons x xs ih =>
    cases b with
    | nil => rfl
    | cons y ys =>
      by_cases h : x = y
      · subst h; simp [countDiff, ih ys]
      · have h' : ¬ (y = x) := fun hh => h hh.symm
        simp [countDiff, h, h', ih ys]

theorem adjacent_comm (a b : Word) : adjacent a b = adjacent b a := by
  simp only [adjacent, countDiff_comm a b]
  by_cases h : a.length = b.length
  · rw [h]
  · have e1 : (a.length == b.length) = false := beq_eq_false_iff_ne.mpr h
    have e2 : (b.length == a.length) = false :=
      beq_eq_false_iff_ne.mpr fun hh => h hh.symm
    rw [e1, e2]

theorem mem_insertLex {w v : Word} {l : List Word} :
    v ∈ insertLex w l ↔ v = w ∨ v ∈ l := by
  induction l with
  | nil => simp [insertLex]
  | cons u us ih =>
    simp only [insertLex]
    by_cases h : lexLe w u = true
    · rw [if_pos h]; simp
    · rw [if_neg h]
      simp only [List.mem_cons, ih]
      tauto

theorem mem_sortLex {v : Word} {l : List Word} : v ∈ sortLex l ↔ v ∈ l := by
  induction l with
  | nil => simp [sortLex]
  | cons u us ih =>
    simp only [sortLex, mem_insertLex, List.mem_cons, ih]

theorem mem_neighbors {g : AdjacencyGraph} {w v : Word} :
    v ∈ neighbors g w ↔ v ∈ g.words ∧ adjacent w v = true := by
  simp [neighbors, mem_sortLex, List.mem_filter]

theorem lexLe_trans : ∀ a b c : Word,
    lexLe a b = true → lexLe b c = true → lexLe a c = true := by
  intro a
  induction a with
  | nil => intro b c _ _; rfl
  | cons x xs ih =>
    intro b c hab hbc
    cases b with
    | nil => simp [lexLe] at hab
    | cons y ys =>
      cases c with
      | nil => simp [lexLe] at hbc
      | cons z zs =>
        simp only [lexLe] at hab hbc ⊢
        by_cases hxy : x < y
        · by_cases hyz : y < z
          · simp [lt_trans hxy hyz]
          · by_cases hzy : z < y
            · simp [hyz, hzy] at hbc
            · have hyzeq : y = z := le_antisymm (not_lt.mp hzy) (not_lt.mp hyz)
              subst hyzeq; simp [hxy]
        · by_cases hyx : y < x
          · simp [hxy, hyx] at hab
          · have hxyeq : x = y := le_antisymm (not_lt.mp hyx) (not_lt.mp hxy)
            subst hxyeq
            simp only [lt_irrefl, if_false, if_neg hxy] at hab
            by_cases hxz : x < z
            · simp [hxz]
            · by_cases hzx : z < x
              · simp [hxz, hzx] at hbc
              · have hxzeq : x = z := le_antisymm (not_lt.mp hzx) (not_lt.mp hxz)
                subst hxzeq
                simp only [lt_irrefl, if_false, if_neg hxz] at hbc ⊢
                exact ih ys zs hab hbc

theorem lexLe_total : ∀ a b : Word, (lexLe a b || lexLe b a) = true := by
  intro a
  induction a with
  | nil => intro b; simp [lexLe]
  | cons x xs ih =>
    intro b
    cases b with
    | nil => simp [lexLe]
    | cons y ys =>
      simp only [lexLe]
      rcases lt_trichotomy x y with h | h | h
      · simp [h]
      · subst h; simpa [lt_irrefl] using ih ys
      · simp [h, not_lt_of_lt h]

/-! Reachability from the end word over the adjacency graph, measured in
BFS edge count. -/

/-- `ReachN g t w n`: there is a walk of `n` edges from `t` to `w` whose
nodes all lie in `g.words`. -/
inductive ReachN (g : AdjacencyGraph) (t : Word) : Word → Nat → Prop
  | refl : t ∈ g.words → ReachN g t t 0
  | step {v w : Word} {n : Nat} :
      ReachN g t v n → adjacent v w = true → w ∈ g.words → ReachN g t w (n + 1)

/-- Start is reachable from end. -/
def Reachable (g : AdjacencyGraph) (t s : Word) : Prop :=
  ∃ n, ReachN g t s n

theorem ReachN.mem_words {g : AdjacencyGraph} {t w : Word} {n : Nat}
    (h : ReachN g t w n) : w ∈ g.words := by
  cases h with
  | refl ht => exact ht
  | step _ _ hw => exact hw

theorem reachN_zero_iff {g : AdjacencyGraph} {t w : Word} :
    ReachN g t w 0 ↔ w = t ∧ t ∈ g.words := by
  constructor
  · intro h; cases h with
    | refl ht => exact ⟨rfl, ht⟩
  · rintro ⟨rfl, ht⟩; exact .refl ht

theorem reachN_succ_iff {g : AdjacencyGraph} {t w : Word} {n : Nat} :
    ReachN g t w (n + 1) ↔
      ∃ v, ReachN g t v n ∧ adjacent v w = true ∧ w ∈ g.words := by
  constructor
  · intro h; cases h with
    | step hv hadj hw => exact ⟨_, hv, hadj, hw⟩
  · rintro ⟨v, hv, hadj, hw⟩; exact .step hv hadj hw

/-- Every nonempty set of naturals has a minimal element (classical). -/
theorem exists_minimal_nat {P : Nat → Prop} (h : ∃ n, P n) :
    ∃ n, P n ∧ ∀ m < n, ¬ P m := by
  obtain ⟨n, hn⟩ := h
  induction n using Nat.strong_induction_on with
  | _ n ih =>
    by_cases h : ∃ m < n, P m
    · obtain ⟨m, hm, hPm⟩ := h
      exact ih m hm hPm
    · push_neg at h
      exact ⟨n, hn, h⟩

/-- On a shortest walk, the predecessor of a node at minimal distance
`m + 1` is at minimal distance `m`. -/
theorem minimal_pred {g : AdjacencyGraph} {t w : Word} {m : Nat}
    (hw : ReachN g t w (m + 1)) (hmin : ∀ k < m + 1, ¬ ReachN g t w k) :
    ∃ v, ReachN g t v m ∧ (∀ k < m, ¬ ReachN g t v k) ∧
      adjacent v w = true ∧ w ∈ g.words := by
  obtain ⟨v, hv, hadj, hwmem⟩ := reachN_succ_iff.mp hw
  refine ⟨v, hv, ?_, hadj, hwmem⟩
  intro k hk hvk
  exact hmin (k + 1) (by omega) (.step hvk hadj hwmem)

/-- Below the minimal distance of any node, every intermediate distance is
realized by some node at exactly that minimal distance. -/
theorem exists_minimal_at_le {g : AdjacencyGraph} {t s : Word} :
    ∀ m, (ReachN g t s m ∧ ∀ k < m, ¬ ReachN g t s k) →
      ∀ d ≤ m, ∃ v, ReachN g t v d ∧ ∀ k < d, ¬ ReachN g t v k := by
  intro m
  induction m generalizing s with
  | zero =>
    rintro ⟨hs, _⟩ d hd
    interval_cases d
    exact ⟨s, hs, by omega⟩
  | succ m ih =>
    rintro ⟨hs, hmin⟩ d hd
    rcases Nat.eq_or_lt_of_le hd with rfl | hlt
    · exact ⟨s, hs, hmin⟩
    · obtain ⟨v, hv, hvmin, _, _⟩ := minimal_pred hs hmin
      exact ih ⟨hv, hvmin⟩ d (by omega)

/-- Adjacency as a relation, for chains. -/
def Adj (a b : Word) : Prop := adjacent a b = true

/-- A valid ladder of the puzzle `(s, t)` over graph `g`: nonempty, starts
at `s`, ends at `t`, consecutive words adjacent, no repeated word, all
words in the dictionary (spec section 3, Solution). -/
def IsLadder (g : AdjacencyGraph) (s t : Word) (l : List Word) : Prop :=
  l.head? = some s ∧ l.getLast? = some t ∧ List.Chain' Adj l ∧
    l.Nodup ∧ ∀ x ∈ l, x ∈ g.words

theorem reachN_iff_walk {g : AdjacencyGraph} {t w : Word} {n : Nat} :
    ReachN g t w n ↔
      ∃ l : List Word, l.length = n + 1 ∧ l.head? = some t ∧
        l.getLast? = some w ∧ List.Chain' Adj l ∧ ∀ x ∈ l, x ∈ g.words := by
  constructor
  · intro h
    induction h with
    | refl ht => exact ⟨[t], rfl, rfl, rfl, List.chain'_singleton t, by simpa⟩
    | @step v w' n' hv hadj hw ih =>
      obtain ⟨l, hlen, hhead, hlast, hchain, hmem⟩ := ih
      refine ⟨l ++ [w'], by simp [hlen], ?_, ?_, ?_, ?_⟩
      · rw [List.head?_append, hhead]; rfl
      · rw [List.getLast?_append]; rfl
      · rw [List.chain'_append]
        refine ⟨hchain, List.chain'_singleton _, ?_⟩
        intro x hx y hy
        simp only [List.head?_cons, Option.mem_def, Option.some_inj] at hy
        rw [hlast] at hx
        simp only [Option.mem_def, Option.some_inj] at hx
        subst hx; subst hy; exact hadj
      · intro x hx
        rcases List.mem_append.mp hx with h | h
        · exact hmem x h
        · simp only [List.mem_singleton] at h; subst h; exact hw
  · rintro ⟨l, hlen, hhead, hlast, hchain, hmem⟩
    induction l using List.reverseRecOn generalizing w n with
    | nil => simp at hlen
    | append_singleton l x ih =>
      cases l with
      | nil =>
        have hx1 : x = t := by simpa using hhead
        have hx2 : x = w := by simpa using hlast
        have hn : n = 0 := by simp at hlen; omega
        subst hn; subst hx1; subst hx2
        exact .refl (hmem _ (by simp))
      | cons y ys =>
        have hne : (y :: ys : List Word) ≠ [] := by simp
        obtain ⟨v, hv⟩ := List.getLast?_isSome.mpr hne |> Option.isSome_iff_exists.mp
        have hlen' : (y :: ys).length = (n - 1) + 1 := by
          simp only [List.length_append, List.length_singleton] at hlen
          simp only [List.length_cons] at *
          omega
        have hn1 : 1 ≤ n := by
          simp only [List.length_append, List.length_cons, List.length_singleton] at hlen
          omega
        have hhead' : (y :: ys).head? = some t := by
          rw [List.head?_append] at hhead
          simpa using hhead
        have hchain' : List.Chain' Adj (y :: ys) :=
          (List.chain'_append.mp hchain).1
        have hx : x = w := by
          rw [List.getLast?_append] at hlast
          simpa using hlast
        have hadj : Adj v x := by
          have := (List.chain'_append.mp hchain).2.2
          exact this v hv x rfl
        have hres : ReachN g t v (n - 1) :=
          ih hlen' hhead' hv hchain'
            (fun z hz => hmem z (List.mem_append_left _ hz))
        have : ReachN g t x (n - 1 + 1) :=
          .step hres hadj (hmem x (List.mem_append_right _ (by simp)))
        subst hx
        have heq : n - 1 + 1 = n := by omega
        rwa [heq] at this

/-- Decompose a list with a repetition around one repeated element. -/
theorem exists_dup_decomp {α : Type _} :
    ∀ (l : List α), ¬ l.Nodup →
      ∃ (a : List α) (x : α) (b c : List α), l = a ++ x :: (b ++ x :: c) := by
  intro l h
  induction l with
  | nil => simp at h
  | cons y ys ih =>
    by_cases hy : y ∈ ys
    · obtain ⟨b, c, rfl⟩ := List.append_of_mem hy
      exact ⟨[], y, b, c, rfl⟩
    · have hys : ¬ ys.Nodup := fun hnd => h (List.nodup_cons.mpr ⟨hy, hnd⟩)
      obtain ⟨a, x, b, c, rfl⟩ := ih hys
      exact ⟨y :: a, x, b, c, rfl⟩

/-- Any chain can be shortened to a duplicate-free chain with the same
endpoints, using only elements of the original. -/
theorem walk_cut_aux :
    ∀ (N : Nat) (l : List Word), l.length ≤ N → List.Chain' Adj l →
      ∃ l', l'.Nodup ∧ List.Chain' Adj l' ∧ l'.head? = l.head? ∧
        l'.getLast? = l.getLast? ∧ l'.length ≤ l.length ∧ ∀ x ∈ l', x ∈ l := by
  intro N
  induction N with
  | zero =>
    intro l hl _
    have : l = [] := List.length_eq_zero.mp (by omega)
    subst this
    exact ⟨[], List.nodup_nil, List.chain'_nil, rfl, rfl, le_refl _, by simp⟩
  | succ N ih =>
    intro l hl hchain
    by_cases hnd : l.Nodup
    · exact ⟨l, hnd, hchain, rfl, rfl, le_refl _, fun x hx => hx⟩
    · obtain ⟨a, x, b, c, rfl⟩ := exists_dup_decomp l hnd
      -- the shortened candidate
      have hchain2 : List.Chain' Adj (a ++ x :: c) := by
        rw [List.chain'_append] at hchain ⊢
        obtain ⟨ha, hxbxc, hjun⟩ := hchain
        have : (x :: b) ++ (x :: c) = x :: (b ++ x :: c) := by simp
        rw [← this, List.chain'_append] at hxbxc
        refine ⟨ha, hxbxc.2.1, ?_⟩
        intro u hu v hv
        exact hjun u hu v (by simpa using hv)
      have hlen2 : (a ++ x :: c).length ≤ N := by
        simp only [List.length_append, List.length_cons] at hl ⊢
        omega
      obtain ⟨l', hnd', hchain', hhead', hlast', hlen', hsub'⟩ :=
        ih (a ++ x :: c) hlen2 hchain2
      refine ⟨l', hnd', hchain', ?_, ?_, ?_, ?_⟩
      · rw [hhead', List.head?_append, List.head?_append]; rfl
      · rw [hlast', List.getLast?_append, List.getLast?_append]
        have : (x :: (b ++ x :: c)).getLast? = (x :: c).getLast? := by
          have h1 : x :: (b ++ x :: c) = (x :: b) ++ (x :: c) := by simp
          rw [h1, List.getLast?_append]
          cases hc : (x :: c).getLast? with
          | none => simp at hc
          | some z => rfl
        rw [this]
      · calc l'.length ≤ (a ++ x :: c).length := hlen'
          _ ≤ (a ++ x :: (b ++ x :: c)).length := by
            simp only [List.length_append, List.length_cons]; omega
      · intro z hz
        have := hsub' z hz
        rcases List.mem_append.mp this with h | h
        · exact List.mem_append_left _ h
        · rcases List.mem_cons.mp h with h | h
          · subst h; exact List.mem_append_right _ (by simp)
          · exact List.mem_append_right _ (by simp [h])

theorem walk_cut {l : List Word} (hchain : List.Chain' Adj l) :
    ∃ l', l'.Nodup ∧ List.Chain' Adj l' ∧ l'.head? = l.head? ∧
      l'.getLast? = l.getLast? ∧ l'.length ≤ l.length ∧ ∀ x ∈ l', x ∈ l :=
  walk_cut_aux l.length l (le_refl _) hchain

/-! BFS correctness. -/

theorem nodup_subset_length {α : Type _} [DecidableEq α] {l1 l2 : List α}
    (h1 : l1.Nodup) (h : ∀ x ∈ l1, x ∈ l2) : l1.length ≤ l2.length := by
  calc l1.length = l1.toFinset.card := (List.toFinset_card_of_nodup h1).symm
    _ ≤ l2.toFinset.card := Finset.card_le_card fun x hx => by
        rw [List.mem_toFinset] at hx ⊢; exact h x hx
    _ ≤ l2.length := List.toFinset_card_le l2

/-- One BFS round: from a frontier of the nodes at minimal distance `d` and
a visited set of the nodes at distance at most `d`, the next frontier is
exactly the set of nodes at minimal distance `d + 1`. -/
theorem bfs_step {g : AdjacencyGraph} {t : Word} {d : Nat}
    {frontier visited : List Word}
    (hv : ∀ w, w ∈ visited ↔ ∃ n ≤ d, ReachN g t w n)
    (hf : ∀ w, w ∈ frontier ↔ (ReachN g t w d ∧ ∀ n < d, ¬ ReachN g t w n)) :
    ∀ w, w ∈ ((frontier.flatMap fun u => neighbors g u).filter
        fun w => w ∉ visited).dedup ↔
      (ReachN g t w (d + 1) ∧ ∀ n < d + 1, ¬ ReachN g t w n) := by
  intro w
  rw [List.mem_dedup, List.mem_filter]
  constructor
  · rintro ⟨hmem, hnotv⟩
    rw [List.mem_flatMap] at hmem
    obtain ⟨u, hu, hw⟩ := hmem
    obtain ⟨hur, _⟩ := (hf u).mp hu
    obtain ⟨hwords, hadj⟩ := mem_neighbors.mp hw
    refine ⟨.step hur hadj hwords, ?_⟩
    intro n hn hrw
    have hwv : w ∈ visited := (hv w).mpr ⟨n, by omega, hrw⟩
    simp only [decide_eq_true_eq] at hnotv
    exact hnotv hwv
  · rintro ⟨hreach, hmin⟩
    obtain ⟨v, hvd, hvmin, hadj, hwmem⟩ := minimal_pred hreach hmin
    constructor
    · rw [List.mem_flatMap]
      exact ⟨v, (hf v).mpr ⟨hvd, hvmin⟩, mem_neighbors.mpr ⟨hwmem, hadj⟩⟩
    · simp only [decide_eq_true_eq]
      intro hwv
      obtain ⟨n, hn, hrn⟩ := (hv w).mp hwv
      exact hmin n (by omega) hrn

/-- Unfolding equation for a BFS round with fuel left. -/
theorem bfsAux_succ (g : AdjacencyGraph) (s : Word) (fuel : Nat)
    (frontier visited : List Word) (d : Nat) :
    bfsAux g s (fuel + 1) frontier visited d =
      if s ∈ frontier then some d
      else if ((frontier.flatMap fun u => neighbors g u).filter
          fun w => w ∉ visited).dedup = [] then none
      else bfsAux g s fuel
        ((frontier.flatMap fun u => neighbors g u).filter fun w => w ∉ visited).dedup
        (visited ++ ((frontier.flatMap fun u => neighbors g u).filter
          fun w => w ∉ visited).dedup)
        (d + 1) := rfl

/-- The BFS loop returns the minimal distance from `t` to `s` when `s` is
reachable, and an explicit no-value when it is not. -/
theorem bfsAux_spec {g : AdjacencyGraph} {t s : Word} :
    ∀ (fuel : Nat) (frontier visited : List Word) (d : Nat),
      (∀ w, w ∈ visited ↔ ∃ n ≤ d, ReachN g t w n) →
      (∀ w, w ∈ frontier ↔ (ReachN g t w d ∧ ∀ n < d, ¬ ReachN g t w n)) →
      visited.Nodup →
      (∀ n < d, ¬ ReachN g t s n) →
      g.words.length + 1 ≤ fuel + visited.length →
      ((∀ m, (ReachN g t s m ∧ ∀ k < m, ¬ ReachN g t s k) →
          bfsAux g s fuel frontier visited d = some m) ∧
        ((¬ ∃ n, ReachN g t s n) → bfsAux g s fuel frontier visited d = none)) := by
  intro fuel
  induction fuel with
  | zero =>
    intro frontier visited d hv hf hnd hs hfuel
    exfalso
    have hsub : ∀ x ∈ visited, x ∈ g.words := fun x hx => by
      obtain ⟨n, _, hr⟩ := (hv x).mp hx
      exact hr.mem_words
    have := nodup_subset_length hnd hsub
    omega
  | succ fuel ih =>
    intro frontier visited d hv hf hnd hs hfuel
    rw [bfsAux_succ]
    by_cases hsf : s ∈ frontier
    · obtain ⟨hsd, _⟩ := (hf s).mp hsf
      rw [if_pos hsf]
      constructor
      · rintro m ⟨hm, hmmin⟩
        have hmd : m = d := by
          by_contra hne
          rcases Nat.lt_or_ge m d with h | h
          · exact hs m h hm
          · exact hmmin d (by omega) hsd
        rw [hmd]
      · intro hun
        exact absurd ⟨d, hsd⟩ hun
    · rw [if_neg hsf]
      have hs' : ∀ n < d + 1, ¬ ReachN g t s n := by
        intro n hn hr
        rcases Nat.lt_or_ge n d with h | h
        · exact hs n h hr
        · have hnd' : n = d := by omega
          subst hnd'
          exact hsf ((hf s).mpr ⟨hr, hs⟩)
      have hstep := bfs_step hv hf
      by_cases hempty : ((frontier.flatMap fun u => neighbors g u).filter
          fun w => w ∉ visited).dedup = []
      · rw [if_pos hempty]
        constructor
        · rintro m ⟨hm, hmmin⟩
          exfalso
          have hmd : d + 1 ≤ m := by
            by_contra hlt
            exact hs' m (by omega) hm
          obtain ⟨v, hv1, hv2⟩ := exists_minimal_at_le m ⟨hm, hmmin⟩ (d + 1) hmd
          have : v ∈ ((frontier.flatMap fun u => neighbors g u).filter
              fun w => w ∉ visited).dedup := (hstep v).mpr ⟨hv1, hv2⟩
          rw [hempty] at this
          simp at this
        · intro _; rfl
      · rw [if_neg hempty]
        have hvnext : ∀ w, w ∈ visited ++ ((frontier.flatMap fun u => neighbors g u).filter
            fun w => w ∉ visited).dedup ↔ ∃ n ≤ d + 1, ReachN g t w n := by
          intro w
          rw [List.mem_append]
          constructor
          · rintro (h | h)
            · obtain ⟨n, hn, hr⟩ := (hv w).mp h
              exact ⟨n, by omega, hr⟩
            · obtain ⟨hr, _⟩ := (hstep w).mp h
              exact ⟨d + 1, le_refl _, hr⟩
          · rintro ⟨n, hn, hr⟩
            by_cases hvis : ∃ k ≤ d, ReachN g t w k
            · exact Or.inl ((hv w).mpr hvis)
            · push_neg at hvis
              obtain ⟨m0, hm0, hm0min⟩ := exists_minimal_nat ⟨n, hr⟩
              have hm0d : m0 = d + 1 := by
                have h1 : d + 1 ≤ m0 := by
                  by_contra hlt
                  exact hvis m0 (by omega) hm0
                have h2 : m0 ≤ n := by
                  by_contra hlt
                  exact hm0min n (by omega) hr
                omega
              subst hm0d
              exact Or.inr ((hstep w).mpr ⟨hm0, hm0min⟩)
        have hndnext : (visited ++ ((frontier.flatMap fun u => neighbors g u).filter
            fun w => w ∉ visited).dedup).Nodup := by
          rw [List.nodup_append]
          refine ⟨hnd, List.nodup_dedup _, ?_⟩
          intro x hx hx'
          obtain ⟨_, hmin⟩ := (hstep x).mp hx'
          obtain ⟨n, hn, hr⟩ := (hv x).mp hx
          exact hmin n (by omega) hr
        have hfuel' : g.words.length + 1 ≤ fuel + (visited ++
            ((frontier.flatMap fun u => neighbors g u).filter
              fun w => w ∉ visited).dedup).length := by
          have hpos : 0 < (((frontier.flatMap fun u => neighbors g u).filter
              fun w => w ∉ visited).dedup).length := List.length_pos.mpr hempty
          rw [List.length_append]
          omega
        exact ih _ _ (d + 1) hvnext hstep hndnext hs' hfuel'

theorem bfs_spec {g : AdjacencyGraph} {t s : Word} (ht : t ∈ g.words) :
    (∀ m, (ReachN g t s m ∧ ∀ k < m, ¬ ReachN g t s k) → bfs g s t = some m) ∧
      ((¬ ∃ n, ReachN g t s n) → bfs g s t = none) := by
  have hv : ∀ w, w ∈ ([t] : List Word) ↔ ∃ n ≤ 0, ReachN g t w n := by
    intro w
    simp only [List.mem_singleton]
    constructor
    · rintro rfl; exact ⟨0, le_refl _, .refl ht⟩
    · rintro ⟨n, hn, hr⟩
      have : n = 0 := by omega
      subst this
      exact (reachN_zero_iff.mp hr).1
  have hf : ∀ w, w ∈ ([t] : List Word) ↔
      (ReachN g t w 0 ∧ ∀ n < 0, ¬ ReachN g t w n) := by
    intro w
    simp only [List.mem_singleton]
    constructor
    · rintro rfl; exact ⟨.refl ht, by omega⟩
    · rintro ⟨hr, _⟩
      exact (reachN_zero_iff.mp hr).1
  exact bfsAux_spec (g.words.length + 1) [t] [t] 0 hv hf
    (List.nodup_singleton t) (by omega) (by simp)

theorem bfs_eq_some_iff {g : AdjacencyGraph} {t s : Word} {m : Nat}
    (ht : t ∈ g.words) :
    bfs g s t = some m ↔ (ReachN g t s m ∧ ∀ k < m, ¬ ReachN g t s k) := by
  obtain ⟨h1, h2⟩ := bfs_spec (s := s) ht
  constructor
  · intro heq
    by_cases hreach : ∃ n, ReachN g t s n
    · obtain ⟨m0, hm0, hm0min⟩ := exists_minimal_nat hreach
      have := h1 m0 ⟨hm0, hm0min⟩
      rw [heq] at this
      injection this with h
      rw [h]
      exact ⟨hm0, hm0min⟩
    · rw [h2 hreach] at heq
      exact absurd heq (by simp)
  · exact h1 m

theorem bfs_eq_none_iff {g : AdjacencyGraph} {t s : Word}
    (ht : t ∈ g.words) :
    bfs g s t = none ↔ ¬ Reachable g t s := by
  obtain ⟨h1, h2⟩ := bfs_spec (s := s) ht
  constructor
  · intro heq hreach
    obtain ⟨m0, hm0, hm0min⟩ := exists_minimal_nat hreach
    have := h1 m0 ⟨hm0, hm0min⟩
    rw [heq] at this
    exact absurd this (by simp)
  · exact h2

/-! DFS solver: soundness and completeness. -/

theorem visit_zero (g : AdjacencyGraph) (t : Word) (path : List Word) (cur : Word) :
    visit g t 0 path cur =
      if cur ∈ path then ([], 1)
      else if cur = t then ([path ++ [cur]], 1)
      else ([], 1) := rfl

theorem visit_succ (g : AdjacencyGraph) (t : Word) (r : Nat)
    (path : List Word) (cur : Word) :
    visit g t (r + 1) path cur =
      if cur ∈ path then ([], 1)
      else if cur = t then ([path ++ [cur]], 1)
      else
        (((((neighbors g cur).map fun v =>
            if pruned g t r v then ([], 1)
            else visit g t r (path ++ [cur]) v).map Prod.fst).flatten),
          1 + ((((neighbors g cur).map fun v =>
            if pruned g t r v then ([], 1)
            else visit g t r (path ++ [cur]) v).map Prod.snd).sum)) := rfl

theorem nodup_concat {α : Type _} {l : List α} {a : α}
    (h2 : l.Nodup) (h : a ∉ l) : (l ++ [a]).Nodup :=
  List.nodup_append.mpr ⟨h2, List.nodup_singleton a, List.disjoint_singleton.mpr h⟩

/-- Soundness of one DFS frame: everything it returns extends the current
path by a block that starts at the current word, ends at the target, respects
the length budget, and preserves distinctness, chaining and dictionary
membership. -/
theorem visit_sound {g : AdjacencyGraph} {t : Word} :
    ∀ (r : Nat) (path : List Word) (cur : Word) (l : List Word),
      l ∈ (visit g t r path cur).1 →
      cur ∉ path ∧
      (∃ rest, l = path ++ rest ∧ rest.head? = some cur) ∧
      l.getLast? = some t ∧
      l.length ≤ path.length + 1 + r ∧
      (path.Nodup → l.Nodup) ∧
      (List.Chain' Adj (path ++ [cur]) → List.Chain' Adj l) ∧
      ((∀ x ∈ path, x ∈ g.words) → cur ∈ g.words → ∀ x ∈ l, x ∈ g.words) := by
  intro r
  induction r with
  | zero =>
    intro path cur l hl
    rw [visit_zero] at hl
    by_cases hmem : cur ∈ path
    · rw [if_pos hmem] at hl; simp at hl
    · rw [if_neg hmem] at hl
      by_cases hcur : cur = t
      · rw [if_pos hcur] at hl
        simp only [List.mem_singleton] at hl
        subst hl
        refine ⟨hmem, ⟨[cur], rfl, rfl⟩, ?_, by simp, ?_, fun h => h, ?_⟩
        · rw [List.getLast?_concat, hcur]
        · intro hnd; exact nodup_concat hnd hmem
        · intro hp hc x hx
          rcases List.mem_append.mp hx with h | h
          · exact hp x h
          · simp only [List.mem_singleton] at h; subst h; exact hc
      · rw [if_neg hcur] at hl; simp at hl
  | succ r ih =>
    intro path cur l hl
    rw [visit_succ] at hl
    by_cases hmem : cur ∈ path
    · rw [if_pos hmem] at hl; simp at hl
    · rw [if_neg hmem] at hl
      by_cases hcur : cur = t
      · rw [if_pos hcur] at hl
        simp only [List.mem_singleton] at hl
        subst hl
        refine ⟨hmem, ⟨[cur], rfl, rfl⟩, ?_, by simp, ?_, fun h => h, ?_⟩
        · rw [List.getLast?_concat, hcur]
        · intro hnd; exact nodup_concat hnd hmem
        · intro hp hc x hx
          rcases List.mem_append.mp hx with h | h
          · exact hp x h
          · simp only [List.mem_singleton] at h; subst h; exact hc
      · rw [if_neg hcur] at hl
        rw [List.mem_flatten] at hl
        obtain ⟨ls, hls, hlc⟩ := hl
        rw [List.mem_map] at hls
        obtain ⟨c, hcmem, rfl⟩ := hls
        rw [List.mem_map] at hcmem
        obtain ⟨v, hv, rfl⟩ := hcmem
        by_cases hpr : pruned g t r v
        · rw [if_pos hpr] at hlc; simp at hlc
        · rw [if_neg hpr] at hlc
          obtain ⟨hv1, ⟨rest', hrest', hresthd⟩, h3, h4, h5, h6, h7⟩ :=
            ih (path ++ [cur]) v l hlc
          obtain ⟨hvwords, hadj⟩ := mem_neighbors.mp hv
          refine ⟨hmem, ⟨cur :: rest', by simpa using hrest', rfl⟩, h3, ?_, ?_, ?_, ?_⟩
          · simp only [List.length_append, List.length_singleton] at h4
            omega
          · intro hnd
            exact h5 (nodup_concat hnd hmem)
          · intro hchain
            apply h6
            rw [List.chain'_append]
            refine ⟨hchain, List.chain'_singleton v, ?_⟩
            intro x hx y hy
            rw [List.getLast?_concat] at hx
            have hxc : cur = x := by simpa using hx
            have hyv : v = y := by simpa using hy
            rw [← hxc, ← hyv]
            exact hadj
          · intro hp hc
            apply h7
            · intro x hx
              rcases List.mem_append.mp hx with h | h
              · exact hp x h
              · simp only [List.mem_singleton] at h; subst h; exact hc
            · exact hvwords

/-- Completeness of one DFS frame: any valid ladder extending the current
path within the length budget is found. -/
theorem visit_complete {g : AdjacencyGraph} {t : Word} (ht : t ∈ g.words) :
    ∀ (r : Nat) (path : List Word) (cur : Word) (rest : List Word) (l : List Word),
      l = path ++ cur :: rest →
      l.Nodup →
      List.Chain' Adj l →
      (∀ x ∈ l, x ∈ g.words) →
      l.getLast? = some t →
      l.length ≤ path.length + 1 + r →
      l ∈ (visit g t r path cur).1 := by
  intro r
  induction r with
  | zero =>
    intro path cur rest l hleq hnd hchain hmem hlast hlen
    have hrest : rest = [] := by
      subst hleq
      simp only [List.length_append, List.length_cons] at hlen
      have : rest.length = 0 := by omega
      exact List.length_eq_zero.mp this
    subst hrest
    have hcurt : cur = t := by
      subst hleq
      have : (path ++ [cur]).getLast? = some cur := List.getLast?_concat path
      rw [hlast] at this
      injection this with h
      exact h.symm
    have hcm : cur ∉ path := by
      subst hleq
      rw [List.nodup_append] at hnd
      exact fun hc => hnd.2.2 hc (by simp)
    rw [visit_zero, if_neg hcm, if_pos hcurt]
    subst hleq
    simp
  | succ r ih =>
    intro path cur rest l hleq hnd hchain hmem hlast hlen
    have hcm : cur ∉ path := by
      subst hleq
      rw [List.nodup_middle] at hnd
      rw [List.nodup_cons] at hnd
      exact fun hc => hnd.1 (List.mem_append_left _ hc)
    cases rest with
    | nil =>
      have hcurt : cur = t := by
        subst hleq
        have : (path ++ [cur]).getLast? = some cur := List.getLast?_concat path
        rw [hlast] at this
        injection this with h
        exact h.symm
      rw [visit_succ, if_neg hcm, if_pos hcurt]
      subst hleq
      simp
    | cons v rest' =>
      have hcurt : cur ≠ t := by
        intro hceq
        subst hceq
        -- cur would occur both here and at the end of the ladder
        subst hleq
        have h1 : (path ++ cur :: v :: rest').getLast? =
            (cur :: v :: rest').getLast? := by
          rw [List.getLast?_append]
          cases hq : (cur :: v :: rest').getLast? with
          | none => simp at hq
          | some z => rfl
        have hlast2 : (v :: rest').getLast? = some cur := by
          rw [h1, List.getLast?_cons_cons] at hlast
          exact hlast
        have hcmem : cur ∈ v :: rest' := by
          have hne : (v :: rest' : List Word) ≠ [] := by simp
          rw [List.getLast?_eq_getLast _ hne] at hlast2
          injection hlast2 with hg
          rw [← hg]
          exact List.getLast_mem hne
        rw [List.nodup_middle, List.nodup_cons] at hnd
        exact hnd.1 (List.mem_append_right _ hcmem)
      rw [visit_succ, if_neg hcm, if_neg hcurt]
      -- the next word on the ladder
      have hadj : Adj cur v := by
        subst hleq
        have := (List.chain'_append.mp hchain).2.1
        exact (List.chain'_cons.mp this).1
      have hvwords : v ∈ g.words := by
        subst hleq
        exact hmem v (List.mem_append_right _ (by simp))
      have hvnb : v ∈ neighbors g cur := mem_neighbors.mpr ⟨hvwords, hadj⟩
      -- the tail of the ladder witnesses a reach of t from v,
      -- so v is not pruned
      have hwalk : ReachN g t v rest'.length := by
        subst hleq
        rw [reachN_iff_walk]
        refine ⟨(v :: rest').reverse, by simp, ?_, ?_, ?_, ?_⟩
        · rw [List.head?_reverse]
          have h1 : (path ++ cur :: v :: rest').getLast? =
              (cur :: v :: rest').getLast? := by
            rw [List.getLast?_append]
            cases hq : (cur :: v :: rest').getLast? with
            | none => simp at hq
            | some z => rfl
          rw [h1, List.getLast?_cons_cons] at hlast
          exact hlast
        · rw [List.getLast?_reverse]; rfl
        · rw [List.chain'_reverse]
          have hsub : List.Chain' Adj (v :: rest') := by
            have := (List.chain'_append.mp hchain).2.1
            exact (List.chain'_cons.mp this).2
          exact hsub.imp (fun a b hab => by
            simp only [flip, Adj] at *
            rw [adjacent_comm]
            exact hab)
        · intro x hx
          rw [List.mem_reverse] at hx
          exact hmem x (List.mem_append_right _ (by simp [hx]))
      have hlenr : rest'.length ≤ r := by
        subst hleq
        simp only [List.length_append, List.length_cons] at hlen
        omega
      have hnpr : ¬ pruned g t r v = true := by
        intro hpr
        unfold pruned distTable at hpr
        cases hq : bfs g v t with
        | none =>
          exact (bfs_eq_none_iff ht).mp hq ⟨rest'.length, hwalk⟩
        | some dv =>
          rw [hq] at hpr
          have hpr' : r < dv := by simpa using hpr
          obtain ⟨_, hdvmin⟩ := (bfs_eq_some_iff ht).mp hq
          exact hdvmin rest'.length (by omega) hwalk
      -- membership of the recursive result in the flattened children
      have hrec : l ∈ (visit g t r (path ++ [cur]) v).1 := by
        apply ih (path ++ [cur]) v rest' l
        · rw [hleq]; simp
        · exact hnd
        · exact hchain
        · exact hmem
        · exact hlast
        · subst hleq
          simp only [List.length_append, List.length_cons, List.length_singleton] at *
          omega
      rw [List.mem_flatten]
      refine ⟨(visit g t r (path ++ [cur]) v).1, ?_, hrec⟩
      rw [List.mem_map]
      refine ⟨visit g t r (path ++ [cur]) v, ?_, rfl⟩
      rw [List.mem_map]
      exact ⟨v, hvnb, by rw [if_neg hnpr]⟩

theorem ReachN.target_mem {g : AdjacencyGraph} {t w : Word} {n : Nat}
    (h : ReachN g t w n) : t ∈ g.words := by
  induction h with
  | refl ht => exact ht
  | step _ _ _ ih => exact ih

theorem IsLadder.ne_nil {g : AdjacencyGraph} {s t : Word} {l : List Word}
    (h : IsLadder g s t l) : l ≠ [] := by
  intro heq
  subst heq
  exact absurd h.1 (by simp)

/-- A valid ladder from `s` to `t` yields a walk from `t` back to `s` of one
less edge than its word count. -/
theorem ladder_reach {g : AdjacencyGraph} {s t : Word} {l : List Word}
    (h : IsLadder g s t l) : ReachN g t s (l.length - 1) := by
  obtain ⟨hhead, hlast, hchain, _, hmem⟩ := h
  rw [reachN_iff_walk]
  have hne : l ≠ [] := IsLadder.ne_nil ⟨hhead, hlast, hchain, ‹_›, hmem⟩
  refine ⟨l.reverse, ?_, ?_, ?_, ?_, ?_⟩
  · rw [List.length_reverse]
    have : 0 < l.length := List.length_pos.mpr hne
    omega
  · rw [List.head?_reverse]; exact hlast
  · rw [List.getLast?_reverse]; exact hhead
  · rw [List.chain'_reverse]
    exact hchain.imp fun a b hab => by
      simp only [flip, Adj] at *
      rw [adjacent_comm]
      exact hab
  · intro x hx
    rw [List.mem_reverse] at hx
    exact hmem x hx

/-- A shortest walk yields a valid (duplicate-free) ladder of exactly the
minimal word count. -/
theorem reach_ladder {g : AdjacencyGraph} {s t : Word} {m : Nat}
    (hr : ReachN g t s m) (hmin : ∀ k < m, ¬ ReachN g t s k) :
    ∃ l, IsLadder g s t l ∧ l.length = m + 1 := by
  obtain ⟨l0, hlen0, hhead0, hlast0, hchain0, hmem0⟩ := reachN_iff_walk.mp hr
  obtain ⟨l', hnd', hchain', hhead', hlast', hlen', hsub'⟩ := walk_cut hchain0
  have hne' : l' ≠ [] := by
    intro heq
    rw [heq] at hhead'
    rw [hhead0] at hhead'
    simp at hhead'
  have hpos' : 0 < l'.length := List.length_pos.mpr hne'
  have hwalk' : ReachN g t s (l'.length - 1) := by
    rw [reachN_iff_walk]
    exact ⟨l', by omega, by rw [hhead', hhead0], by rw [hlast', hlast0],
      hchain', fun x hx => hmem0 x (hsub' x hx)⟩
  have hlen'' : l'.length = m + 1 := by
    have h1 : ¬ (l'.length - 1 < m) := fun hlt => hmin _ hlt hwalk'
    omega
  refine ⟨l'.reverse, ⟨?_, ?_, ?_, ?_, ?_⟩, by simpa using hlen''⟩
  · rw [List.head?_reverse, hlast', hlast0]
  · rw [List.getLast?_reverse, hhead', hhead0]
  · rw [List.chain'_reverse]
    exact hchain'.imp fun a b hab => by
      simp only [flip, Adj] at *
      rw [adjacent_comm]
      exact hab
  · exact List.nodup_reverse.mpr hnd'
  · intro x hx
    rw [List.mem_reverse] at hx
    exact hmem0 x (hsub' x hx)

/-- Reduction of the solver on the trivial puzzle start = end. -/
theorem visit_self (g : AdjacencyGraph) (t : Word) (r : Nat) :
    visit g t r [] t = ([[t]], 1) := by
  cases r with
  | zero => rw [visit_zero]; simp
  | succ k => rw [visit_succ]; simp

/-! The claims. -/

/-- C1: every Solution returned by `Solver.solve(puzzle, max_length)` starts
at the puzzle's start word, ends at its end word, repeats no word, steps
only between adjacent words, and has word count at most `max_length`. -/
theorem C1_solution_validity (p : Puzzle) (max_length : Nat) (l : List Word)
    (hl : l ∈ (solve p max_length).1) :
    l.head? = some p.start ∧ l.getLast? = some p.target ∧ l.Nodup ∧
      List.Chain' Adj l ∧ l.length ≤ max_length := by
  cases max_length with
  | zero => simp [solve] at hl
  | succ m =>
    have hl' : l ∈ (visit p.graph p.target m [] p.start).1 := hl
    obtain ⟨-, ⟨rest, hrest, hhd⟩, h3, h4, h5, h6, -⟩ :=
      visit_sound m [] p.start l hl'
    rw [List.nil_append] at hrest
    subst hrest
    refine ⟨hhd, h3, h5 List.nodup_nil, ?_, ?_⟩
    · exact h6 (by simp)
    · simp only [List.length_nil] at h4
      omega

/-- Witness for C1 at a concrete two-word puzzle. -/
theorem C1_solution_validity_witness :
    ([['A','B'], ['A','C']] ∈
        (solve ⟨⟨[['A','B'], ['A','C']]⟩, ['A','B'], ['A','C']⟩ 2).1) ∧
      ([['A','B'], ['A','C']] : List Word).head? = some ['A','B'] ∧
      ([['A','B'], ['A','C']] : List Word).getLast? = some ['A','C'] ∧
      ([['A','B'], ['A','C']] : List Word).Nodup ∧
      List.Chain' Adj [['A','B'], ['A','C']] ∧
      ([['A','B'], ['A','C']] : List Word).length ≤ 2 :=
  ⟨by decide,
    C1_solution_validity ⟨⟨[['A','B'], ['A','C']]⟩, ['A','B'], ['A','C']⟩ 2
      [['A','B'], ['A','C']] (by decide)⟩

/-- C2: when the start is reachable from the end,
`calculate_minimum_ladder_length` returns the smallest word count `M` for
which a valid ladder exists, and `solve(puzzle, M)` is nonempty and contains
a ladder of exactly `M` words. -/
theorem C2_bfs_optimality (p : Puzzle)
    (hreach : Reachable p.graph p.target p.start) :
    ∃ M, calculate_minimum_ladder_length p = some M ∧
      (∃ l, IsLadder p.graph p.start p.target l ∧ l.length = M) ∧
      (∀ l, IsLadder p.graph p.start p.target l → M ≤ l.length) ∧
      (solve p M).1 ≠ [] ∧ (∃ l ∈ (solve p M).1, l.length = M) := by
  obtain ⟨n, hn⟩ := hreach
  obtain ⟨m0, hm0, hm0min⟩ := exists_minimal_nat ⟨n, hn⟩
  have ht : p.target ∈ p.graph.words := hm0.target_mem
  have hbfs : bfs p.graph p.start p.target = some m0 :=
    (bfs_spec ht).1 m0 ⟨hm0, hm0min⟩
  have hfound : ∃ l ∈ (solve p (m0 + 1)).1, l.length = m0 + 1 := by
    obtain ⟨l, hl, hlen⟩ := reach_ladder hm0 hm0min
    refine ⟨l, ?_, hlen⟩
    have hl1 : l = p.start :: l.tail := by
      cases l with
      | nil => exact absurd hl.1 (by simp)
      | cons a as =>
        have : a = p.start := by simpa using hl.1
        rw [this]; rfl
    show l ∈ (visit p.graph p.target m0 [] p.start).1
    apply visit_complete ht m0 [] p.start l.tail l
    · simpa using hl1
    · exact hl.2.2.2.1
    · exact hl.2.2.1
    · exact hl.2.2.2.2
    · exact hl.2.1
    · simp only [List.length_nil, hlen]
      omega
  refine ⟨m0 + 1, ?_, reach_ladder hm0 hm0min, ?_, ?_, hfound⟩
  · simp [calculate_minimum_ladder_length, hbfs]
  · intro l hl
    have hr := ladder_reach hl
    have hpos : 0 < l.length := List.length_pos.mpr hl.ne_nil
    by_contra hlt
    push_neg at hlt
    exact hm0min (l.length - 1) (by omega) hr
  · obtain ⟨l, hl, -⟩ := hfound
    intro hempty
    rw [hempty] at hl
    simp at hl

/-- Witness for C2 at a concrete two-word puzzle. -/
theorem C2_bfs_optimality_witness :
    Reachable ⟨[['A','B'], ['A','C']]⟩ ['A','C'] ['A','B'] ∧
      (∃ M, calculate_minimum_ladder_length
          ⟨⟨[['A','B'], ['A','C']]⟩, ['A','B'], ['A','C']⟩ = some M ∧
        (∃ l, IsLadder ⟨[['A','B'], ['A','C']]⟩ ['A','B'] ['A','C'] l ∧
          l.length = M) ∧
        (∀ l, IsLadder ⟨[['A','B'], ['A','C']]⟩ ['A','B'] ['A','C'] l →
          M ≤ l.length) ∧
        (solve ⟨⟨[['A','B'], ['A','C']]⟩, ['A','B'], ['A','C']⟩ M).1 ≠ [] ∧
        (∃ l ∈ (solve ⟨⟨[['A','B'], ['A','C']]⟩, ['A','B'], ['A','C']⟩ M).1,
          l.length = M)) :=
  have hreach : Reachable ⟨[['A','B'], ['A','C']]⟩ ['A','C'] ['A','B'] :=
    ⟨1, .step (.refl (by decide)) (by decide) (by decide)⟩
  ⟨hreach, C2_bfs_optimality ⟨⟨[['A','B'], ['A','C']]⟩, ['A','B'], ['A','C']⟩ hreach⟩

/-- C3: when the start word is unreachable from the end word,
`calculate_minimum_ladder_length` returns the explicit no-value result
rather than failing. -/
theorem C3_unreachable_is_none (p : Puzzle) (ht : p.target ∈ p.graph.words)
    (hun : ¬ Reachable p.graph p.target p.start) :
    calculate_minimum_ladder_length p = none := by
  have hb := (bfs_spec (s := p.start) ht).2 hun
  simp [calculate_minimum_ladder_length, hb]

/-- Witness for C3: two mutually non-adjacent words. -/
theorem C3_unreachable_is_none_witness :
    (['C','D'] ∈ (⟨[['A','B'], ['C','D']]⟩ : AdjacencyGraph).words) ∧
      (¬ Reachable ⟨[['A','B'], ['C','D']]⟩ ['C','D'] ['A','B']) ∧
      calculate_minimum_ladder_length
        ⟨⟨[['A','B'], ['C','D']]⟩, ['A','B'], ['C','D']⟩ = none := by
  have hun : ¬ Reachable (⟨[['A','B'], ['C','D']]⟩ : AdjacencyGraph)
      ['C','D'] ['A','B'] := by
    have key : ∀ (w : Word) (n : Nat),
        ReachN ⟨[['A','B'], ['C','D']]⟩ ['C','D'] w n → w = ['C','D'] := by
      intro w n h
      induction h with
      | refl _ => rfl
      | @step v w' n' hv hadj hw ih =>
        subst ih
        rcases List.mem_cons.mp hw with h1 | h1
        · subst h1; exact absurd hadj (by decide)
        · rcases List.mem_cons.mp h1 with h2 | h2
          · subst h2; exact absurd hadj (by decide)
          · simp at h2
    rintro ⟨n, hr⟩
    exact absurd (key _ n hr) (by decide)
  exact ⟨by decide, hun,
    C3_unreachable_is_none ⟨⟨[['A','B'], ['C','D']]⟩, ['A','B'], ['C','D']⟩
      (by decide) hun⟩

/-- C4: the Puzzle constructor fails exactly when one of the two words is
absent from the graph or is an island word. -/
theorem C4_puzzle_constructor_validates (g : AdjacencyGraph) (s t : Word) :
    mkPuzzle g s t = none ↔
      (s ∉ g.words ∨ t ∉ g.words ∨
        is_island g s = true ∨ is_island g t = true) := by
  unfold mkPuzzle
  by_cases h : s ∈ g.words ∧ t ∈ g.words ∧
      is_island g s = false ∧ is_island g t = false
  · rw [if_pos h]
    obtain ⟨h1, h2, h3, h4⟩ := h
    simp [h1, h2, h3, h4]
  · rw [if_neg h]
    constructor
    · intro _
      by_contra hcon
      push_neg at hcon
      obtain ⟨c1, c2, c3, c4⟩ := hcon
      have h3 : is_island g s = false := by
        cases hb : is_island g s
        · rfl
        · exact absurd hb c3
      have h4 : is_island g t = false := by
        cases hb : is_island g t
        · rfl
        · exact absurd hb c4
      exact h ⟨c1, c2, h3, h4⟩
    · intro _; rfl

/-- C5: on a puzzle whose start equals its end, the minimum ladder length is
1 and the solver returns exactly the singleton ladder, for any allowed
maximum length. -/
theorem C5_identical_start_end (p : Puzzle) (heq : p.start = p.target)
    (m : Nat) (hm : 1 ≤ m) :
    calculate_minimum_ladder_length p = some 1 ∧
      (solve p m).1 = [[p.target]] := by
  constructor
  · have hb : bfs p.graph p.start p.target = some 0 := by
      unfold bfs
      rw [heq, bfsAux_succ, if_pos (List.mem_singleton_self p.target)]
    simp [calculate_minimum_ladder_length, hb]
  · cases m with
    | zero => omega
    | succ k =>
      show (visit p.graph p.target k [] p.start).1 = [[p.target]]
      rw [heq, visit_self]

/-- Witness for C5 on a concrete trivial puzzle. -/
theorem C5_identical_start_end_witness :
    ((⟨⟨[['A','B'], ['A','C']]⟩, ['A','B'], ['A','B']⟩ : Puzzle).start =
        (⟨⟨[['A','B'], ['A','C']]⟩, ['A','B'], ['A','B']⟩ : Puzzle).target) ∧
      (1 ≤ 3) ∧
      calculate_minimum_ladder_length
        ⟨⟨[['A','B'], ['A','C']]⟩, ['A','B'], ['A','B']⟩ = some 1 ∧
      (solve ⟨⟨[['A','B'], ['A','C']]⟩, ['A','B'], ['A','B']⟩ 3).1 =
        [[['A','B']]] :=
  ⟨rfl, by omega,
    C5_identical_start_end ⟨⟨[['A','B'], ['A','C']]⟩, ['A','B'], ['A','B']⟩
      rfl 3 (by omega)⟩

theorem insertLex_pairwise {w : Word} {l : List Word}
    (h : l.Pairwise fun a b => lexLe a b = true) :
    (insertLex w l).Pairwise fun a b => lexLe a b = true := by
  induction l with
  | nil => simp [insertLex]
  | cons v vs ih =>
    rw [List.pairwise_cons] at h
    obtain ⟨hv, hvs⟩ := h
    simp only [insertLex]
    by_cases hwv : lexLe w v = true
    · rw [if_pos hwv, List.pairwise_cons]
      constructor
      · intro b hb
        rcases List.mem_cons.mp hb with rfl | hb
        · exact hwv
        · exact lexLe_trans w v b hwv (hv b hb)
      · exact List.pairwise_cons.mpr ⟨hv, hvs⟩
    · rw [if_neg hwv, List.pairwise_cons]
      constructor
      · intro b hb
        rcases mem_insertLex.mp hb with hbw | hb
        · rw [hbw]
          have htot := lexLe_total w v
          have hf : lexLe w v = false := by
            cases hb2 : lexLe w v
            · rfl
            · exact absurd hb2 hwv
          rw [hf] at htot
          simpa using htot
        · exact hv b hb
      · exact ih hvs

theorem sortLex_pairwise :
    ∀ l : List Word, (sortLex l).Pairwise fun a b => lexLe a b = true := by
  intro l
  induction l with
  | nil => simp [sortLex]
  | cons w ws ih => exact insertLex_pairwise ih

/-- C6: solving is deterministic — two calls on identical inputs give the
same ordered solutions and the same explored count (the solver is a pure
function of its inputs) — and the neighbor traversal order is the
lexicographic order on letters. -/
theorem C6_determinism :
    (∀ (p : Puzzle) (m : Nat),
        (solve p m).1 = (solve p m).1 ∧ (solve p m).2 = (solve p m).2) ∧
      ∀ (g : AdjacencyGraph) (w : Word),
        (neighbors g w).Pairwise fun a b => lexLe a b = true :=
  ⟨fun _ _ => ⟨rfl, rfl⟩, fun _ _ => sortLex_pairwise _⟩

/-- C7: any maximum length strictly below the minimum ladder length makes
the solver return the empty sequence (and, being a total function, it
raises no error). -/
theorem C7_below_minimum_is_empty (p : Puzzle) (M m : Nat)
    (ht : p.target ∈ p.graph.words)
    (hM : calculate_minimum_ladder_length p = some M)
    (hm : m < M) :
    (solve p m).1 = [] := by
  obtain ⟨k, hk, hkM⟩ : ∃ k, bfs p.graph p.start p.target = some k ∧
      M = k + 1 := by
    unfold calculate_minimum_ladder_length at hM
    cases hq : bfs p.graph p.start p.target with
    | none => rw [hq] at hM; simp at hM
    | some k =>
      rw [hq] at hM
      refine ⟨k, rfl, ?_⟩
      simp only [Option.map_some'] at hM
      injection hM with h
      omega
  obtain ⟨hreachk, hminimal⟩ := (bfs_eq_some_iff ht).mp hk
  cases m with
  | zero => rfl
  | succ mm =>
    by_contra hne
    obtain ⟨l, hl⟩ := List.exists_mem_of_ne_nil _ hne
    have hl' : l ∈ (visit p.graph p.target mm [] p.start).1 := hl
    obtain ⟨-, ⟨rest, hrest, hhd⟩, h3, h4, h5, h6, h7⟩ :=
      visit_sound mm [] p.start l hl'
    rw [List.nil_append] at hrest
    subst hrest
    have hs : p.start ∈ p.graph.words := hreachk.mem_words
    have hlad : IsLadder p.graph p.start p.target l :=
      ⟨hhd, h3, h6 (by simp),
        h5 List.nodup_nil, h7 (by simp) hs⟩
    have hr := ladder_reach hlad
    have hpos : 0 < l.length := List.length_pos.mpr hlad.ne_nil
    simp only [List.length_nil] at h4
    exact hminimal (l.length - 1) (by omega) hr

/-- Witness for C7: a puzzle of minimum length 2 solved with budget 1. -/
theorem C7_below_minimum_is_empty_witness :
    (['A','C'] ∈ (⟨[['A','B'], ['A','C']]⟩ : AdjacencyGraph).words) ∧
      calculate_minimum_ladder_length
        ⟨⟨[['A','B'], ['A','C']]⟩, ['A','B'], ['A','C']⟩ = some 2 ∧
      (1 < 2) ∧
      (solve ⟨⟨[['A','B'], ['A','C']]⟩, ['A','B'], ['A','C']⟩ 1).1 = [] :=
  ⟨by decide, by decide, by omega,
    C7_below_minimum_is_empty ⟨⟨[['A','B'], ['A','C']]⟩, ['A','B'], ['A','C']⟩
      2 1 (by decide) (by decide) (by omega)⟩

theorem validate_word_not_found {g : AdjacencyGraph} {input : List Char}
    (h : dictGet g (upperW input) = none) :
    validate_word g input = (none, [red (notFoundMsg input)]) := by
  unfold validate_word
  rw [h]

theorem validate_word_island {g : AdjacencyGraph} {input : List Char} {w : Word}
    (h : dictGet g (upperW input) = some w) (hisl : is_island g w = true) :
    validate_word g input = (none, [red (islandMsg input)]) := by
  unfold validate_word
  rw [h]
  exact if_pos hisl

theorem validate_word_ok {g : AdjacencyGraph} {input : List Char} {w : Word}
    (h : dictGet g (upperW input) = some w) (hisl : is_island g w = false) :
    validate_word g input = (some w, []) := by
  unfold validate_word
  rw [h]
  exact if_neg (by simp [hisl])

/-- C8: `validate_word` recovers from a missing word by reporting and
returning no word (never failing), rejects island words with the offending
input identified in the report, and returns the word itself exactly when the
word is present and not an island. -/
theorem C8_validate_word_contract (g : AdjacencyGraph) (input : List Char) :
    (dictGet g (upperW input) = none →
      validate_word g input = (none, [red (notFoundMsg input)]) ∧
        input <:+: notFoundMsg input) ∧
    (∀ w, dictGet g (upperW input) = some w → is_island g w = true →
      validate_word g input = (none, [red (islandMsg input)]) ∧
        input <:+: islandMsg input) ∧
    (∀ w, (validate_word g input).1 = some w ↔
      (dictGet g (upperW input) = some w ∧ is_island g w = false)) := by
  refine ⟨?_, ?_, ?_⟩
  · intro h
    refine ⟨validate_word_not_found h, ?_⟩
    exact ⟨"⚠️ Word ".toList ++ sq, sq ++ " does not exist!".toList, by
      simp [notFoundMsg, List.append_assoc]⟩
  · intro w hw hisl
    refine ⟨validate_word_island hw hisl, ?_⟩
    exact ⟨"⚠️ Word ".toList ++ sq,
      sq ++ " is an island word (cannot change single letter to form another word).".toList,
      by simp [islandMsg, List.append_assoc]⟩
  · intro w
    constructor
    · intro hsome
      cases hq : dictGet g (upperW input) with
      | none =>
        rw [validate_word_not_found hq] at hsome
        simp at hsome
      | some u =>
        cases hisl : is_island g u with
        | false =>
          rw [validate_word_ok hq hisl] at hsome
          have hw : u = w := by simpa using hsome
          subst hw
          exact ⟨rfl, hisl⟩
        | true =>
          rw [validate_word_island hq hisl] at hsome
          simp at hsome
    · rintro ⟨hq, hisl⟩
      rw [validate_word_ok hq hisl]

/-- Witness for C8: a graph without the queried word. -/
theorem C8_validate_word_contract_witness :
    dictGet ⟨[['A','B'], ['A','C']]⟩ (upperW ['z','z']) = none ∧
      validate_word ⟨[['A','B'], ['A','C']]⟩ ['z','z'] =
        (none, [red (notFoundMsg ['z','z'])]) ∧
      ['z','z'] <:+: notFoundMsg ['z','z'] :=
  ⟨by decide,
    (C8_validate_word_contract ⟨[['A','B'], ['A','C']]⟩ ['z','z']).1 (by decide)⟩

/-! Facts about `highlight_changes_in_ladder`. -/

theorem firstDiffSplit_refl : ∀ w : List Char, firstDiffSplit w w = some none := by
  intro w
  induction w with
  | nil => rfl
  | cons a as ih => simp [firstDiffSplit, ih]

theorem firstDiffSplit_spec :
    ∀ (w1 w2 : List Char), w1.length = w2.length → w1 ≠ w2 →
      ∃ c, firstDiffSplit w1 w2 =
          some (some (w1.take (firstDiffIdx w1 w2), c,
            w1.drop (firstDiffIdx w1 w2 + 1))) ∧
        (w1.drop (firstDiffIdx w1 w2)).take 1 = [c] := by
  intro w1
  induction w1 with
  | nil =>
    intro w2 hlen hne
    cases w2 with
    | nil => exact absurd rfl hne
    | cons b bs => simp at hlen
  | cons a as ih =>
    intro w2 hlen hne
    cases w2 with
    | nil => simp at hlen
    | cons b bs =>
      by_cases hab : a = b
      · subst hab
        have hne' : as ≠ bs := fun h => hne (by rw [h])
        have hlen' : as.length = bs.length := by simpa using hlen
        obtain ⟨c, hc1, hc2⟩ := ih bs hlen' hne'
        have hidx : firstDiffIdx (a :: as) (a :: bs) = firstDiffIdx as bs + 1 := by
          unfold firstDiffIdx
          rw [List.zip_cons_cons, List.findIdx_cons]
          simp
        refine ⟨c, ?_, ?_⟩
        · rw [hidx]
          simp [firstDiffSplit, hc1, List.take_succ_cons, List.drop_succ_cons]
        · rw [hidx]
          simpa [List.drop_succ_cons] using hc2
      · have hidx : firstDiffIdx (a :: as) (b :: bs) = 0 := by
          unfold firstDiffIdx
          rw [List.zip_cons_cons, List.findIdx_cons]
          simp [hab]
        refine ⟨a, ?_, ?_⟩
        · rw [hidx]
          simp [firstDiffSplit, hab]
        · rw [hidx]
          simp

theorem intercalate_cons_ne (sep x : List Char) (xs : List (List Char))
    (h : xs ≠ []) :
    List.intercalate sep (x :: xs) = x ++ sep ++ List.intercalate sep xs := by
  cases xs with
  | nil => exact absurd rfl h
  | cons y zs => simp [List.intercalate]

/-- The good case of the claim: on a nonempty ladder of equal-length words
with every consecutive pair differing somewhere, the embedded function
returns exactly the claimed rendering. -/
theorem highlight_spec :
    ∀ (ladder : List (List Char)), ladder ≠ [] →
      List.Chain' (fun w1 w2 => w1.length = w2.length ∧ w1 ≠ w2) ladder →
      highlight_changes_in_ladder ladder = some (claimHighlight ladder) := by
  intro ladder
  induction ladder with
  | nil => intro h; exact absurd rfl h
  | cons w1 rest ih =>
    intro _ hchain
    cases rest with
    | nil =>
      simp [highlight_changes_in_ladder, ladderPieces, claimHighlight,
        List.intercalate]
    | cons w2 rest2 =>
      obtain ⟨⟨hlen, hne⟩, hchain2⟩ := List.chain'_cons.mp hchain
      obtain ⟨c, hc1, hc2⟩ := firstDiffSplit_spec w1 w2 hlen hne
      have ihr := ih (by simp) hchain2
      -- dissect the result on the tail
      obtain ⟨last2, hlast2⟩ : ∃ z, (w2 :: rest2).getLast? = some z :=
        Option.isSome_iff_exists.mp (List.getLast?_isSome.mpr (by simp))
      have hpieces : ∃ ps, ladderPieces (w2 :: rest2) = some ps ∧
          (ps ++ [last2]).flatten = claimHighlight (w2 :: rest2) := by
        unfold highlight_changes_in_ladder at ihr
        rw [hlast2] at ihr
        cases hq : ladderPieces (w2 :: rest2) with
        | none => rw [hq] at ihr; simp at ihr
        | some ps =>
          rw [hq] at ihr
          simp only [Option.map_some'] at ihr
          injection ihr with h
          exact ⟨ps, rfl, h⟩
      obtain ⟨ps, hps, hpsval⟩ := hpieces
      have hhw : claimHighlightWord w1 w2 =
          w1.take (firstDiffIdx w1 w2) ++ spanOpenH ++ [c] ++ spanCloseH ++
            w1.drop (firstDiffIdx w1 w2 + 1) := by
        unfold claimHighlightWord
        simp only [hc2]
      -- compute the pieces of the longer ladder
      have hpieces1 : ladderPieces (w1 :: w2 :: rest2) =
          some (claimHighlightWord w1 w2 :: arrowPiece :: ps) := by
        unfold ladderPieces
        rw [hc1, hps]
        simp [hhw, List.append_assoc]
      -- compute both sides
      unfold highlight_changes_in_ladder
      rw [List.getLast?_cons_cons, hlast2, hpieces1]
      simp only [Option.map_some', Option.some_inj]
      have h1D : (w1 :: w2 :: rest2).getLastD [] = last2 := by
        rw [List.getLastD_eq_getLast?, List.getLast?_cons_cons, hlast2]
        rfl
      have h2D : (w2 :: rest2).getLastD [] = last2 := by
        rw [List.getLastD_eq_getLast?, hlast2]
        rfl
      have hc2i : List.intercalate arrowPiece
          ((List.map (fun p => claimHighlightWord p.1 p.2)
            ((w2 :: rest2).zip rest2)) ++ [last2]) =
          claimHighlight (w2 :: rest2) := by
        unfold claimHighlight
        have ht2 : (w2 :: rest2).tail = rest2 := rfl
        rw [ht2, h2D]
      have hrhs : claimHighlight (w1 :: w2 :: rest2) =
          claimHighlightWord w1 w2 ++ arrowPiece ++ claimHighlight (w2 :: rest2) := by
        unfold claimHighlight
        have ht1 : (w1 :: w2 :: rest2).tail = w2 :: rest2 := rfl
        rw [ht1, List.zip_cons_cons, List.map_cons, h1D]
        rw [List.cons_append, intercalate_cons_ne _ _ _ (by simp)]
        rw [hc2i]
        rfl
      rw [hrhs, ← hpsval]
      simp [List.flatten_cons, List.append_assoc]

/-- C9: on every nonempty ladder of equal-length words whose consecutive
pairs each differ somewhere, `highlight_changes_in_ladder` renders each
non-final word once with exactly its first differing character wrapped in
the highlight span, separated by the arrow, with the final word verbatim;
a word equal to its successor is silently omitted (only the arrow is
emitted); and on the empty ladder the function fails. -/
theorem C9_highlight_ladder :
    (∀ ladder : List (List Char), ladder ≠ [] →
        List.Chain' (fun w1 w2 => w1.length = w2.length ∧ w1 ≠ w2) ladder →
        highlight_changes_in_ladder ladder = some (claimHighlight ladder)) ∧
      (∀ (w : List Char) (rest : List (List Char)),
        highlight_changes_in_ladder (w :: w :: rest) =
          (highlight_changes_in_ladder (w :: rest)).map
            fun out => arrowPiece ++ out) ∧
      highlight_changes_in_ladder [] = none := by
  refine ⟨highlight_spec, ?_, rfl⟩
  intro w rest
  unfold highlight_changes_in_ladder
  obtain ⟨lw, hlw⟩ : ∃ z, (w :: rest).getLast? = some z :=
    Option.isSome_iff_exists.mp (List.getLast?_isSome.mpr (by simp))
  rw [List.getLast?_cons_cons, hlw]
  have hp : ladderPieces (w :: w :: rest) =
      (ladderPieces (w :: rest)).map fun ps => arrowPiece :: ps := by
    have heq : ladderPieces (w :: w :: rest) =
        match firstDiffSplit w w, ladderPieces (w :: rest) with
        | none, _ => none
        | some none, r => r.map fun ps => arrowPiece :: ps
        | some (some (pre, c, post)), r =>
          r.map fun ps =>
            (pre ++ spanOpenH ++ [c] ++ spanCloseH ++ post) :: arrowPiece :: ps := rfl
    rw [heq, firstDiffSplit_refl]
  rw [hp]
  cases hq : ladderPieces (w :: rest) with
  | none => rfl
  | some ps => simp [List.flatten_cons]

/-- Witness for C9 on the concrete ladder CAT to COT. -/
theorem C9_highlight_ladder_witness :
    ((([['C','A','T'], ['C','O','T']] : List (List Char)) ≠ []) ∧
      List.Chain' (fun w1 w2 => w1.length = w2.length ∧ w1 ≠ w2)
        [['C','A','T'], ['C','O','T']]) ∧
      highlight_changes_in_ladder [['C','A','T'], ['C','O','T']] =
        some (claimHighlight [['C','A','T'], ['C','O','T']]) :=
  have hchain : List.Chain' (fun w1 w2 : List Char =>
      w1.length = w2.length ∧ w1 ≠ w2) [['C','A','T'], ['C','O','T']] :=
    List.chain'_cons.mpr ⟨⟨by decide, by decide⟩, List.chain'_singleton _⟩
  ⟨⟨by decide, hchain⟩,
    C9_highlight_ladder.1 [['C','A','T'], ['C','O','T']] (by decide) hchain⟩

/-- C10: `find_closest_solutions` returns a permutation of the whole
candidate list, ordered by non-increasing similarity ratio to the user
solution. -/
theorem C10_find_closest_solutions (user_solution : List (List Char))
    (solutions : List (List (List Char))) :
    (find_closest_solutions user_solution solutions).Perm solutions ∧
      (find_closest_solutions user_solution solutions).Pairwise
        fun a b => similarity user_solution b ≤ similarity user_solution a := by
  constructor
  · unfold find_closest_solutions
    have h1 := List.mergeSort_perm
      (solutions.map fun s => (s, similarity user_solution s))
      fun x y => decide (y.2 ≤ x.2)
    have h2 := h1.map Prod.fst
    have h3 : ((solutions.map fun s => (s, similarity user_solution s)).map
        Prod.fst) = solutions := by
      simp [Function.comp_def]
    rw [h3] at h2
    exact h2
  · unfold find_closest_solutions
    have htrans : ∀ a b c : List (List Char) × ℚ,
        (fun x y : List (List Char) × ℚ => decide (y.2 ≤ x.2)) a b = true →
        (fun x y : List (List Char) × ℚ => decide (y.2 ≤ x.2)) b c = true →
        (fun x y : List (List Char) × ℚ => decide (y.2 ≤ x.2)) a c = true := by
      intro a b c hab hbc
      simp only [decide_eq_true_eq] at hab hbc ⊢
      exact le_trans hbc hab
    have htotal : ∀ a b : List (List Char) × ℚ,
        ((fun x y : List (List Char) × ℚ => decide (y.2 ≤ x.2)) a b ||
          (fun x y : List (List Char) × ℚ => decide (y.2 ≤ x.2)) b a) = true := by
      intro a b
      simp only [Bool.or_eq_true, decide_eq_true_eq]
      exact le_total b.2 a.2
    have hsorted := List.sorted_mergeSort htrans htotal
      (solutions.map fun s => (s, similarity user_solution s))
    rw [List.pairwise_map]
    refine hsorted.imp_of_mem ?_
    intro a b ha hb hab
    have hmem : ∀ x : List (List Char) × ℚ,
        x ∈ (solutions.map fun s => (s, similarity user_solution s)).mergeSort
          (fun x y => decide (y.2 ≤ x.2)) →
        x.2 = similarity user_solution x.1 := by
      intro x hx
      rw [List.mem_mergeSort, List.mem_map] at hx
      obtain ⟨s, _, rfl⟩ := hx
      rfl
    have hab' : b.2 ≤ a.2 := by simpa using hab
    rw [hmem a ha, hmem b hb] at hab'
    exact hab'

end WordLadder
